import Mathlib

/-!
Verification development for the `satnam2609/exchange` matching pipeline.

Shallow embedding of the Rust sources:
* `src/core/memmap/src/lib.rs`   — the memory-mapped SPSC ring queue (`MmapQueue`);
* `src/src/lib.rs`               — the limit order book (`LimitOrderBook`);
* `src/core/engine/src/lib.rs`   — the matching engine loop body (`MatchingEngine::run`);
* `src/core/sequencer/src/seq/mod.rs` — the sequencer promotion step (`Sequencer::run`);
* `src/core/core_utils/src/lib.rs`    — the shared message model.

Machine integers are modelled as `Nat` with explicit `% 2^w` where the source
relies on wrapping (`u64` queue indices, the `u128` sequence counter, the
`u32` slot length prefix).  `f64` prices are modelled as `ℚ`: every price the
development evaluates is a short decimal, on which the `OrderedFloat` total
order used by the source agrees with the rational order.
-/

namespace Exchange

/-- The constant `2^64`, the wrap-around modulus of the `u64` queue indices. -/
def W64 : ℕ := 2 ^ 64

/-- Wrapping `u64` addition (`wrapping_add`). -/
def wadd (a b : ℕ) : ℕ := (a + b) % W64

/-- Wrapping `u64` subtraction (`wrapping_sub`). -/
def wsub (a b : ℕ) : ℕ := (a + W64 - b % W64) % W64

/-- Little-endian bytes of a `u32` length prefix (`payload.len() as u32`,
written with `ptr::write_unaligned` on a little-endian target). -/
def encodeU32 (n : ℕ) : List ℕ :=
  [n % 256, n / 256 % 256, n / 65536 % 256, n / 16777216 % 256]

/-- Reading the `u32` length prefix back (`ptr::read_unaligned`). -/
def decodeU32 (l : List ℕ) : ℕ :=
  match l with
  | [a, b, c, d] => a + 256 * b + 65536 * c + 16777216 * d
  | _ => 0

/-- Model of `capacity.is_power_of_two()` from `MmapQueue::create`. -/
def is_power_of_two (n : ℕ) : Bool := n ≠ 0 && n &&& (n - 1) == 0

/-- The queue state from `src/core/memmap/src/lib.rs`.  The header fields
`capacity`, `slot_size`, `head`, `tail`, `mask` are as in the Rust `Header`;
the slot area of the mapping is `slots`, one byte list per slot. -/
structure MmapQueue where
  capacity : ℕ
  slot_size : ℕ
  head : ℕ
  tail : ℕ
  mask : ℕ
  slots : List (List ℕ)
deriving Repr, DecidableEq

/-- Model of `MmapQueue::create`: it fails unless the capacity is a power of two, else
zero-fills the mapping, `slot_size = 4 + max_payload`, `mask = capacity - 1`,
`head = tail = 0`. -/
def MmapQueue.create (capacity slot_payload_size : ℕ) : Option MmapQueue :=
  if is_power_of_two capacity then
    some { capacity := capacity
           slot_size := 4 + slot_payload_size
           head := 0
           tail := 0
           mask := capacity - 1
           slots := List.replicate capacity (List.replicate (4 + slot_payload_size) 0) }
  else none

/-- The slot bytes written by `MmapQueue::enqueue`: `u32` length prefix,
payload, zero padding to `slot_size`. -/
def writtenSlot (slot_size : ℕ) (payload : List ℕ) : List ℕ :=
  encodeU32 payload.length ++ payload ++ List.replicate (slot_size - 4 - payload.length) 0

/-- Model of `MmapQueue::enqueue`.  It returns the queue state after the call together
with `some errorMessage` when the call bails ( the source bails before any
write, so the state component is the unmodified queue on error). -/
def MmapQueue.enqueue (q : MmapQueue) (payload : List ℕ) : MmapQueue × Option String :=
  if payload.length > q.slot_size - 4 then
    (q, some "payload is too large for slot")
  else
    let tail := q.tail
    let head := q.head
    let next_tail := wadd tail 1
    if wsub next_tail head > q.capacity then
      (q, some "queue is overflowed")
    else
      let idx := tail &&& q.mask
      ({ q with slots := q.slots.set idx (writtenSlot q.slot_size payload)
                tail := next_tail }, none)

/-- Model of `MmapQueue::dequeue`: `Ok(None)` when empty, `Err` on a corrupted length,
`Ok(Some payload)` otherwise, advancing `head`. -/
def MmapQueue.dequeue (q : MmapQueue) : MmapQueue × Except String (Option (List ℕ)) :=
  let head := q.head
  let tail := q.tail
  if tail = head then (q, Except.ok none)
  else
    let idx := head &&& q.mask
    let slot := q.slots.getD idx []
    let len := decodeU32 (slot.take 4)
    if len > q.slot_size - 4 then (q, Except.error "corrupted length in slot")
    else ({ q with head := wadd head 1 }, Except.ok (some ((slot.drop 4).take len)))

/-- The payloads currently held by the queue, oldest first: the decoded slots
at indices `head, head+1, …, tail-1` (wrapping). -/
def MmapQueue.payloads (q : MmapQueue) : List (List ℕ) :=
  (List.range (wsub q.tail q.head)).map fun i =>
    let slot := q.slots.getD (wadd q.head i &&& q.mask) []
    (slot.drop 4).take (decodeU32 (slot.take 4))

/-- Abstraction relation for the ring queue: `H ≤ T` are the unbounded ghost
producer/consumer counts, `pend` the pending payloads.  All conditions are
decidable so that concrete states can be checked by `decide`. -/
def Rep (k : ℕ) (q : MmapQueue) (pend : List (List ℕ)) (H T : ℕ) : Prop :=
  k ≤ 63 ∧
  q.capacity = 2 ^ k ∧
  q.mask = q.capacity - 1 ∧
  4 ≤ q.slot_size ∧
  q.slot_size - 4 < 4294967296 ∧
  q.head = H % W64 ∧
  q.tail = T % W64 ∧
  T = H + pend.length ∧
  pend.length ≤ q.capacity ∧
  q.slots.length = q.capacity ∧
  ∀ i ∈ List.range pend.length,
    (pend.getD i []).length ≤ q.slot_size - 4 ∧
    q.slots.getD ((H + i) % q.capacity) [] = writtenSlot q.slot_size (pend.getD i [])

instance (k q pend H T) : Decidable (Rep k q pend H T) := by
  unfold Rep; infer_instance

/-! ## Message model (`src/core/core_utils/src/lib.rs`) -/

/-- The `Side` enum from `core_utils`. -/
inductive Side where
  | ASK
  | BID
deriving Repr, DecidableEq

/-- The `OrderType` enum from `core_utils`. -/
inductive OrderType where
  | LIMIT
  | MARKET
deriving Repr, DecidableEq

/-- The `Execution` variants from `core_utils`. -/
inductive Execution where
  | INSERTED
  | CANCELLED
  | FILL
  | PARTIAL (price : ℚ) (qty : ℕ)
deriving Repr, DecidableEq

/-- The `ExecuteMessage` struct from `core_utils`.  `seq_id` is a `u128`. -/
structure ExecuteMessage where
  seq_id : ℕ
  execution : Execution
deriving Repr, DecidableEq

/-- Model of `ExecuteMessage::set_execution`. -/
def ExecuteMessage.set_execution (m : ExecuteMessage) (e : Execution) : ExecuteMessage :=
  { m with execution := e }

/-- The `RawOrder` struct from `core_utils` (`seq_id: u128`, `size: u64`).  The
book-internal `Order` node carries exactly these scalar fields plus the
intrusive `prev`/`next` pointers, which this embedding represents by the
node's position inside its price level's order list. -/
structure RawOrder where
  seq_id : ℕ
  order_id : String
  quote : String
  price : ℚ
  size : ℕ
  side : Side
  order_type : OrderType
deriving Repr, DecidableEq

/-- The `OrderValue` struct from `core_utils` (a client submission, pre-sequencing). -/
structure OrderValue where
  quote : String
  order_id : String
  price : ℚ
  size : ℕ
  side : Side
  order_type : OrderType
deriving Repr, DecidableEq

/-- Model of `OrderValue::into_raw`: `RawOrder::default()` with every field overridden
by the builder chain. -/
def OrderValue.into_raw (v : OrderValue) (seq : ℕ) : RawOrder :=
  { seq_id := seq
    order_id := v.order_id
    quote := v.quote
    price := v.price
    size := v.size
    side := v.side
    order_type := v.order_type }

/-! ## Limit order book (`src/src/lib.rs`, `Limit` from
`src/core/order_book/src/limit.rs`)

Pointer structure is embedded as follows.  A `Limit` node owns the
doubly-linked list of its orders; `chain` is the list of nodes reachable from
the `head` pointer in `next` order (so `head = chain.head?`, an order's `prev`
is `none` exactly when it is `chain`'s first element, and its `next` is `none`
exactly when it is `chain`'s last element).  The `tail` pointer is either the
last element of `chain` or null: `tailSome` records which.  (`tail` can be
null on a non-empty list because `remove` writes `limit.tail = next_order` —
which is `None` — when it unlinks a node with a predecessor and no successor;
that very state is what `LimitOrderBook::insert` misreads as a fresh level,
re-pointing `head` at the new order.  A node orphaned that way stays in
`ord_map` in the source; the states visited by the theorems below never
remove or resolve an orphaned node, see `remove`.)

`ask_list`/`ask_map` (and `bid_list`/`bid_map`) share the same `Rc`'d `Limit`
nodes and always hold the same key set, so one association list `asks`
(resp. `bids`) embeds both.  `ord_map` shares the order nodes with the
chains; every size mutation in the engine updates both views
(`mapOrderSize`).  The best-quote caches hold a pointer to an order node,
identified here by its `order_id` (unique across every state the development
evaluates). -/

/-- The `Limit` node (`price`, `vol`, `head`, `tail`): see the representation note
above. -/
structure Limit where
  price : ℚ
  vol : ℕ
  chain : List RawOrder
  tailSome : Bool
deriving Repr, DecidableEq

/-- The `LimitOrderBook` struct from `src/src/lib.rs`. -/
structure LimitOrderBook where
  book_id : String
  asks : List (ℚ × Limit)
  bids : List (ℚ × Limit)
  ord_map : List (String × RawOrder)
  best_ask : Option String
  best_bid : Option String
deriving Repr, DecidableEq

/-- Model of `LimitOrderBook::from(book_id)`. -/
def LimitOrderBook.fromId (book_id : String) : LimitOrderBook :=
  { book_id := book_id, asks := [], bids := [], ord_map := [], best_ask := none, best_bid := none }

/-- Association-list lookup (`HashMap::get` / first binding of a key). -/
def alook {α : Type} [DecidableEq α] {β : Type} (l : List (α × β)) (k : α) : Option β :=
  (l.find? fun p => p.1 = k).map Prod.snd

/-- Apply `f` to the first binding of `k` (mutation through the shared
`Rc<RefCell<Limit>>` obtained from the map). -/
def aupdate {α : Type} [DecidableEq α] {β : Type} (l : List (α × β)) (k : α) (f : β → β) :
    List (α × β) :=
  match l with
  | [] => []
  | (a, b) :: rest => if a = k then (a, f b) :: rest else (a, b) :: aupdate rest k f

/-- Remove the first binding of `k` (`HashMap::remove` / `SkipMap::remove`). -/
def aerase {α : Type} [DecidableEq α] {β : Type} (l : List (α × β)) (k : α) : List (α × β) :=
  l.eraseP fun p => decide (p.1 = k)

/-- Model of `HashMap::insert`: overwrite the binding of `k` if present, else add it. -/
def ainsert {α : Type} [DecidableEq α] {β : Type} (l : List (α × β)) (k : α) (v : β) :
    List (α × β) :=
  if (l.find? fun p => p.1 = k).isSome then aupdate l k fun _ => v else l ++ [(k, v)]

/-- The price-level container of a side (`ask_list`+`ask_map`, or
`bid_list`+`bid_map`). -/
def LimitOrderBook.sideLevels (b : LimitOrderBook) (s : Side) : List (ℚ × Limit) :=
  match s with
  | Side.ASK => b.asks
  | Side.BID => b.bids

/-- Replace a side's level container. -/
def LimitOrderBook.setSideLevels (b : LimitOrderBook) (s : Side) (l : List (ℚ × Limit)) :
    LimitOrderBook :=
  match s with
  | Side.ASK => { b with asks := l }
  | Side.BID => { b with bids := l }

/-- The body of `LimitOrderBook::insert` acting on the looked-up (or fresh)
`Limit` node: `vol += size`; if the `tail` pointer is set, link the new order
after it (append to the chain — the tail pointer is the last chain node in
every state this development visits), else point `head` at the new order
(orphaning whatever the old `head` reached); finally `tail = order`. -/
def insertIntoLimit (l : Limit) (o : RawOrder) : Limit :=
  { l with vol := l.vol + o.size
           chain := if l.tailSome then l.chain ++ [o] else [o]
           tailSome := true }

/-- Model of `LimitOrderBook::insert`. -/
def LimitOrderBook.insert (b : LimitOrderBook) (o : RawOrder) : LimitOrderBook :=
  let price := o.price
  let levels := b.sideLevels o.side
  -- `map.entry(price).or_insert_with(...)` also inserts the fresh node into
  -- the skip list; the looked-up node is then mutated through the `Rc`.
  let levels' :=
    match alook levels price with
    | none => levels ++ [(price, insertIntoLimit (Limit.mk price 0 [] false) o)]
    | some _ => aupdate levels price fun l => insertIntoLimit l o
  let b := b.setSideLevels o.side levels'
  -- best-quote cache: set only when the side's cache is `None`.
  let b :=
    match o.side with
    | Side.ASK => if b.best_ask.isNone then { b with best_ask := some o.order_id } else b
    | Side.BID => if b.best_bid.isNone then { b with best_bid := some o.order_id } else b
  { b with ord_map := ainsert b.ord_map o.order_id o }

/-- Model of `LimitOrderBook::depth`. -/
def LimitOrderBook.depth (b : LimitOrderBook) (side : Side) (limit : ℚ) : Option ℕ :=
  (alook (b.sideLevels side) limit).map Limit.vol

/-- Model of `LimitOrderBook::remove`.  The source looks the node up in `ord_map`,
unlinks it through its `prev`/`next` pointers, subtracts its (current) size
from the level's `vol`, and then: deletes the level when both pointers were
null; re-points `head` at `next` when only `prev` was null; writes
`tail = next_order` — i.e. null — when only `next` was null (the slip noted
in the representation comment).  In the embedding the pointers of a node are
its chain neighbours; a node absent from its level's chain (an orphan) has
no pointer information here, so for it only the `ord_map` and `vol` updates
are performed — no theorem below removes an orphaned node. -/
def LimitOrderBook.remove (b : LimitOrderBook) (order_id : String) : LimitOrderBook :=
  match alook b.ord_map order_id with
  | none => b
  | some o =>
    let b' := { b with ord_map := aerase b.ord_map order_id }
    let levels := b'.sideLevels o.side
    match alook levels o.price with
    | none => b'
    | some l =>
      match l.chain.findIdx? fun x => x.order_id = o.order_id with
      | none => b'.setSideLevels o.side (aupdate levels o.price fun l => { l with vol := l.vol - o.size })
      | some j =>
        let prevNone := j = 0
        let nextNone := j = l.chain.length - 1
        if prevNone ∧ nextNone then
          b'.setSideLevels o.side (aerase levels o.price)
        else
          b'.setSideLevels o.side (aupdate levels o.price fun l =>
            { l with vol := l.vol - o.size
                     chain := l.chain.eraseIdx j
                     tailSome := if ¬prevNone ∧ nextNone then false else l.tailSome })

/-- The price of the best level of a side's container: minimum key for ASK,
maximum for BID (the front resp. back of the sorted skip list). -/
def bestLevelPrice (levels : List (ℚ × Limit)) (s : Side) : Option ℚ :=
  match levels.map Prod.fst with
  | [] => none
  | p :: ps =>
    some (match s with
          | Side.ASK => ps.foldl min p
          | Side.BID => ps.foldl max p)

/-- Modelled from the spec: `LimitOrderBook::update_best` is called by the
matching engine (`src/core/engine/src/lib.rs`) but its source is not under
`src/` — the copy of `src/src/lib.rs` provided predates it.  Spec §4.4:
"`update_best(side)` — recomputes `best_<side>` as the head of the top level
on that side (min price for ASK, max for BID); clears to null if the side is
empty." -/
def LimitOrderBook.update_best (b : LimitOrderBook) (s : Side) : LimitOrderBook :=
  let levels := b.sideLevels s
  let best :=
    (bestLevelPrice levels s).bind fun p =>
      (alook levels p).bind fun l => l.chain.head?.map RawOrder.order_id
  match s with
  | Side.ASK => { b with best_ask := best }
  | Side.BID => { b with best_bid := best }

/-! ## Matching engine (`MatchingEngine::run`, `src/core/engine/src/lib.rs`) -/

/-- Mutation of an order node's size (`order.borrow_mut().size -= q`).  The
node is shared between its level's chain and `ord_map`, so both views are
rewritten; order ids are unique in every state this development visits, so
rewriting every binding of the id is the pointed mutation. -/
def mapOrderSize (b : LimitOrderBook) (id : String) (f : ℕ → ℕ) : LimitOrderBook :=
  let touch : Limit → Limit := fun l =>
    { l with chain := l.chain.map fun o => if o.order_id = id then { o with size := f o.size } else o }
  { b with asks := b.asks.map fun pl => (pl.1, touch pl.2)
           bids := b.bids.map fun pl => (pl.1, touch pl.2)
           ord_map := b.ord_map.map fun kv =>
             if kv.2.order_id = id then (kv.1, { kv.2 with size := f kv.2.size }) else kv }

/-- Dereference the best-quote cache (`lob.best_ask.clone()` /
`lob.best_bid.clone()` followed by `order.borrow()`): the node the pointer
aliases, read through `ord_map` (which shares it).  A dangling cache entry —
a pointer whose node was removed from the book — resolves to `none` here and
is treated below like an empty cache; no state this development evaluates
dereferences a dangling cache. -/
def LimitOrderBook.resolveBest (b : LimitOrderBook) (s : Side) : Option RawOrder :=
  (match s with
   | Side.BID => b.best_ask
   | Side.ASK => b.best_bid).bind fun id => alook b.ord_map id

/-- One iteration of the LOB thread's loop in `MatchingEngine::run`: process
`seq_order`, returning the book afterwards and the `ExecuteMessage`s enqueued
on `outbound`, in emission order. -/
def engineStep (lob : LimitOrderBook) (seq_order : RawOrder) :
    LimitOrderBook × List ExecuteMessage :=
  let outorder_execution := ExecuteMessage.mk seq_order.seq_id Execution.INSERTED
  let side := seq_order.side
  let other_side := lob.resolveBest seq_order.side
  match other_side with
  | some order =>
    let is_match :=
      match order.side with
      | Side.ASK => decide (seq_order.price ≥ order.price)
      | Side.BID => decide (order.price ≥ seq_order.price)
    if is_match then
      let quantity_to_trade := min order.size seq_order.size
      let inorder_execution :=
        ExecuteMessage.mk order.seq_id (Execution.PARTIAL order.price quantity_to_trade)
      -- trade orders
      let seqSize := seq_order.size - quantity_to_trade
      let lob := mapOrderSize lob order.order_id fun s => s - quantity_to_trade
      let restSize := order.size - quantity_to_trade
      let lob :=
        if restSize = 0 then
          (lob.remove order.order_id).update_best order.side
        else lob
      let inorder_execution :=
        if restSize = 0 then inorder_execution.set_execution Execution.FILL
        else inorder_execution
      let lob :=
        if seqSize ≠ 0 then
          (lob.insert { seq_order with size := seqSize }).update_best side
        else lob
      (lob, [inorder_execution, outorder_execution])
    else
      let lob :=
        if seq_order.size ≠ 0 then (lob.insert seq_order).update_best side else lob
      (lob, [outorder_execution])
  | none =>
    ((lob.insert seq_order).update_best side, [outorder_execution])

/-- The LOB thread over a whole inbound stream: fold of `engineStep`,
concatenating the emitted messages. -/
def engineRun (lob : LimitOrderBook) : List RawOrder → LimitOrderBook × List ExecuteMessage
  | [] => (lob, [])
  | o :: os =>
    let (lob', msgs) := engineStep lob o
    let (lobf, rest) := engineRun lob' os
    (lobf, msgs ++ rest)

/-- The aggressor's size remaining after the (single) crossing step of
`engineStep` — a projection of the step used to state claims about it. -/
def aggRemaining (lob : LimitOrderBook) (seq_order : RawOrder) : ℕ :=
  match lob.resolveBest seq_order.side with
  | some order =>
    let is_match :=
      match order.side with
      | Side.ASK => decide (seq_order.price ≥ order.price)
      | Side.BID => decide (order.price ≥ seq_order.price)
    if is_match then seq_order.size - min order.size seq_order.size else seq_order.size
  | none => seq_order.size

/-! ## Sequencer (`Sequencer::run`, `src/core/sequencer/src/seq/mod.rs`) -/

/-- The sequencer state the promotion path touches: the monotonic `u128`
counter, the write-ahead log queue and the `inbound-engine` queue. -/
structure SeqState where
  seq : ℕ
  write_head_log : MmapQueue
  inbound_engine : MmapQueue
deriving Repr, DecidableEq

/-- One promotion in `Sequencer::run` (the `inbound_manager` branch), for a
decoded submission `v`: build the `RawOrder` from the current counter,
increment the counter (`u128` wrapping), serialize, enqueue on the log and —
only if that succeeded — forward the same payload to `inbound-engine`.  The
`bincode` encoding is an uninterpreted parameter `encode`; the returned
`Bool` tells whether the payload was forwarded (a failed enqueue makes `run`
return through `?`). -/
def seqStep (encode : RawOrder → List ℕ) (st : SeqState) (v : OrderValue) :
    SeqState × Bool :=
  let raw_order := v.into_raw st.seq
  let seq' := (st.seq + 1) % 2 ^ 128
  let payload := encode raw_order
  match st.write_head_log.enqueue payload with
  | (log', some _) =>
    ({ st with seq := seq', write_head_log := log' }, false)
  | (log', none) =>
    match st.inbound_engine.enqueue payload with
    | (eng', some _) =>
      ({ seq := seq', write_head_log := log', inbound_engine := eng' }, false)
    | (eng', none) =>
      ({ seq := seq', write_head_log := log', inbound_engine := eng' }, true)

/-! ## Producer/consumer schedules over one queue

`MmapQueue` is SPSC; an interleaving of producer enqueues and consumer
dequeues is a list of operations applied to the shared state in program
order (the single-producer/single-consumer memory-ordering argument of the
source is what justifies this sequentialisation; the claims quantify over
the resulting interleavings). -/

/-- One operation of an SPSC schedule. -/
inductive QOp where
  | enq (p : List ℕ)
  | deq
deriving Repr, DecidableEq

/-- The payloads enqueued by a schedule, in order. -/
def enqPayloads : List QOp → List (List ℕ)
  | [] => []
  | QOp.enq p :: rest => p :: enqPayloads rest
  | QOp.deq :: rest => enqPayloads rest

/-- The number of dequeues in a schedule. -/
def deqCount : List QOp → ℕ
  | [] => 0
  | QOp.enq _ :: rest => deqCount rest
  | QOp.deq :: rest => 1 + deqCount rest

/-- A schedule is valid for a capacity and a current pending count when no
enqueue happens on a full queue and no dequeue happens on an empty one (the
claims quantify over "successful" operations only). -/
def validSched (cap : ℕ) : ℕ → List QOp → Bool
  | _, [] => true
  | pending, QOp.enq _ :: rest => decide (pending < cap) && validSched cap (pending + 1) rest
  | pending, QOp.deq :: rest => decide (0 < pending) && validSched cap (pending - 1) rest

/-- Run a schedule against a queue.  Returns the final queue, the dequeued
payloads in order, and whether every operation succeeded (every enqueue
returned `Ok`, every dequeue returned `Ok(Some _)`). -/
def runQueue (q : MmapQueue) : List QOp → MmapQueue × List (List ℕ) × Bool
  | [] => (q, [], true)
  | QOp.enq p :: rest =>
    match q.enqueue p with
    | (q', none) => runQueue q' rest
    | (q', some _) => (q', [], false)
  | QOp.deq :: rest =>
    match q.dequeue with
    | (q', Except.ok (some out)) =>
      let r := runQueue q' rest
      (r.1, out :: r.2.1, r.2.2)
    | (q', _) => (q', [], false)

/-! ## Concrete fixtures used by counterexamples and witnesses -/

/-- An empty book (`LimitOrderBook::from("BOOK")`). -/
def book0 : LimitOrderBook := LimitOrderBook.fromId "BOOK"

/-- The price 100.10 as the reduced rational 1001/10 (written as an explicit
reduced fraction so that concrete price comparisons evaluate). -/
def p10010 : ℚ := ⟨1001, 10, by norm_num, by norm_num⟩

/-- The price 100 as a reduced rational. -/
def p100 : ℚ := ⟨100, 1, by norm_num, by norm_num⟩

/-- The price 90 as a reduced rational. -/
def p90 : ℚ := ⟨90, 1, by norm_num, by norm_num⟩

/-- Resting ASK `A`, price 100.10, size 3 (§8 scenario 6). -/
def ordA : RawOrder := ⟨1, "A", "BOOK", p10010, 3, Side.ASK, OrderType.LIMIT⟩

/-- Resting ASK `B`, price 100.10, size 7 (§8 scenario 6). -/
def ordB : RawOrder := ⟨2, "B", "BOOK", p10010, 7, Side.ASK, OrderType.LIMIT⟩

/-- Crossing BID, size 5 (§8 scenario 6). -/
def ordC : RawOrder := ⟨3, "C", "BOOK", p10010, 5, Side.BID, OrderType.LIMIT⟩

/-- Resting ASK `A`, price 100.10, size 10 (§8 scenarios 1–2). -/
def ordA10 : RawOrder := ⟨1, "A", "BOOK", p10010, 10, Side.ASK, OrderType.LIMIT⟩

/-- Exactly-matching BID `B`, size 10 (§8 scenario 2). -/
def ordB10 : RawOrder := ⟨2, "B", "BOOK", p10010, 10, Side.BID, OrderType.LIMIT⟩

/-- ASK `X`, price 100.10, size 3 (C3 failing input). -/
def ordX : RawOrder := ⟨1, "X", "BOOK", p10010, 3, Side.ASK, OrderType.LIMIT⟩

/-- ASK `Y`, price 100.10, size 4 (C3 failing input). -/
def ordY : RawOrder := ⟨2, "Y", "BOOK", p10010, 4, Side.ASK, OrderType.LIMIT⟩

/-- ASK `Z`, price 100.10, size 5 (C3 failing input). -/
def ordZ : RawOrder := ⟨3, "Z", "BOOK", p10010, 5, Side.ASK, OrderType.LIMIT⟩

/-- The book after `insert X; insert Y; remove Y; insert Z` (C3). -/
def c3book : LimitOrderBook := (((book0.insert ordX).insert ordY).remove "Y").insert ordZ

/-- ASK `P` at price 100 (C4 counterexample). -/
def ordP : RawOrder := ⟨1, "P", "BOOK", p100, 1, Side.ASK, OrderType.LIMIT⟩

/-- ASK `Q` at the strictly better price 90 (C4 counterexample). -/
def ordQ : RawOrder := ⟨2, "Q", "BOOK", p90, 1, Side.ASK, OrderType.LIMIT⟩

/-- A book holding only the resting ASK `X` (C6 fixtures). -/
def c6book : LimitOrderBook := book0.insert ordX

/-- The opposite side. -/
def otherSide : Side → Side
  | Side.ASK => Side.BID
  | Side.BID => Side.ASK

/-- The lockstep payloads of §8 scenario 7: 20 payloads of varying sizes. -/
def lockPayload (i : ℕ) : List ℕ := List.replicate (i % 5 + 1) i

/-- The §8 scenario 7 schedule: 20 enqueue/dequeue pairs in lockstep. -/
def ops20 : List QOp :=
  (List.range 20).flatMap fun i => [QOp.enq (lockPayload i), QOp.deq]

/-- A fresh capacity-1 queue with 8-byte payload slots (for C5/C10). -/
def cw1 : MmapQueue := (MmapQueue.create 1 8).getD ⟨1, 12, 0, 0, 0, [List.replicate 12 0]⟩

/-- The queue `cw1` filled to capacity: its next enqueue overflows. -/
def qfull : MmapQueue := (cw1.enqueue [1, 2, 3]).1

/-- A fresh capacity-1 queue used as an empty log / engine queue. -/
def qempty : MmapQueue := cw1

/-- A concrete encoding for witnesses (the theorems about the sequencer hold
for every `encode`). -/
def enc0 : RawOrder → List ℕ := fun r => [r.seq_id % 256, r.size % 256]

/-- A concrete client submission. -/
def v0 : OrderValue := ⟨"BOOK", "ORD1", 100.1, 10, Side.BID, OrderType.LIMIT⟩

/-- Sequencer state whose write-ahead log is full (C5 counterexample). -/
def stFull : SeqState := ⟨0, qfull, qempty⟩

/-- Sequencer state with empty log and engine queues (C7 witness). -/
def stEmpty : SeqState := ⟨0, qempty, qempty⟩

/-! # Theorems

## Ring-queue refinement -/

theorem land_mask (x k : ℕ) : x &&& (2 ^ k - 1) = x % 2 ^ k :=
  Nat.and_pow_two_sub_one_eq_mod x k

theorem W64_val : W64 = 18446744073709551616 := by norm_num [W64]

theorem wadd_one_mod (T : ℕ) : wadd (T % W64) 1 = (T + 1) % W64 := by
  simp only [wadd, W64_val]
  omega

theorem wsub_counts {A B : ℕ} (h1 : B ≤ A) (h2 : A - B < W64) :
    wsub (A % W64) (B % W64) = A - B := by
  simp only [wsub, W64_val] at *
  omega

theorem mod_W64_mod_pow {k : ℕ} (hk : k ≤ 64) (x : ℕ) : x % W64 % 2 ^ k = x % 2 ^ k :=
  Nat.mod_mod_of_dvd x (pow_dvd_pow 2 hk)

theorem decode_encode (n : ℕ) : decodeU32 (encodeU32 n) = n % 4294967296 := by
  simp only [encodeU32, decodeU32]
  omega

theorem mod_ne_of_between {cap a b : ℕ} (h1 : a < b) (h2 : b - a < cap) :
    a % cap ≠ b % cap := by
  intro heq
  have hdvd : cap ∣ b - a := (Nat.modEq_iff_dvd' h1.le).mp heq
  have := Nat.le_of_dvd (by omega) hdvd
  omega

theorem getD_set_ne {α : Type} (l : List α) {i j : ℕ} (a d : α) (h : i ≠ j) :
    (l.set i a).getD j d = l.getD j d := by
  simp [List.getD_eq_getElem?_getD, List.getElem?_set_ne h]

theorem getD_set_self {α : Type} (l : List α) {i : ℕ} (a d : α) (h : i < l.length) :
    (l.set i a).getD i d = a := by
  simp [List.getD_eq_getElem?_getD, List.getElem?_set_self h]

theorem getD_append_lt {α : Type} (l₁ l₂ : List α) (i : ℕ) (d : α) (h : i < l₁.length) :
    (l₁ ++ l₂).getD i d = l₁.getD i d := by
  simp [List.getD_eq_getElem?_getD, List.getElem?_append_left h]

theorem getD_append_len {α : Type} (l : List α) (a d : α) :
    (l ++ [a]).getD l.length d = a := by
  simp [List.getD_eq_getElem?_getD, List.getElem?_concat_length]

theorem wadd_mod (a b : ℕ) : wadd (a % W64) b = (a + b) % W64 := by
  simp only [wadd, W64_val]
  omega

theorem take4_writtenSlot (s : ℕ) (p : List ℕ) :
    (writtenSlot s p).take 4 = encodeU32 p.length := by
  simp [writtenSlot, encodeU32]

theorem drop4_writtenSlot (s : ℕ) (p : List ℕ) :
    (writtenSlot s p).drop 4 = p ++ List.replicate (s - 4 - p.length) 0 := by
  simp [writtenSlot, encodeU32]

theorem cap_le_2_63 {k cap : ℕ} (hk : k ≤ 63) (hcap : cap = 2 ^ k) :
    cap ≤ 9223372036854775808 := by
  rw [hcap]
  calc 2 ^ k ≤ 2 ^ 63 := Nat.pow_le_pow_right (by norm_num) hk
    _ = 9223372036854775808 := by norm_num

/-- A successful `enqueue` extends the pending abstraction by the payload. -/
theorem enqueue_rep {k : ℕ} {q : MmapQueue} {pend : List (List ℕ)} {H T : ℕ} {p : List ℕ}
    (hrep : Rep k q pend H T) (hok : (q.enqueue p).2 = none) :
    Rep k (q.enqueue p).1 (pend ++ [p]) H (T + 1) := by
  obtain ⟨hk, hcap, hmask, hslot4, hslot32, hhead, htail, hT, hlen, hslen, hsl⟩ := hrep
  have hcapbound := cap_le_2_63 hk hcap
  have hcappos : 0 < q.capacity := by rw [hcap]; positivity
  by_cases hp : p.length > q.slot_size - 4
  · simp [MmapQueue.enqueue, hp] at hok
  · have hfull : wsub (wadd q.tail 1) q.head = pend.length + 1 := by
      rw [htail, hhead, wadd_one_mod]
      have he : T + 1 - H = pend.length + 1 := by omega
      rw [← he]
      exact wsub_counts (by omega) (by rw [W64_val]; omega)
    by_cases hc : pend.length + 1 > q.capacity
    · have : (q.enqueue p).2 = some "queue is overflowed" := by
        simp [MmapQueue.enqueue, hp, hfull, hc]
      rw [this] at hok; exact Option.noConfusion hok
    · have hidx : q.tail &&& q.mask = T % q.capacity := by
        rw [htail, hmask, hcap, land_mask]
        exact mod_W64_mod_pow (by omega) T
      have hres : (q.enqueue p).1 =
          { q with slots := q.slots.set (T % q.capacity) (writtenSlot q.slot_size p)
                   tail := wadd q.tail 1 } := by
        simp [MmapQueue.enqueue, hp, hfull, hc, hidx]
      rw [hres]
      refine ⟨hk, hcap, hmask, hslot4, hslot32, hhead, ?_, ?_, ?_, ?_, ?_⟩
      · show wadd q.tail 1 = (T + 1) % W64
        rw [htail, wadd_one_mod]
      · show T + 1 = H + (pend ++ [p]).length
        simp; omega
      · show (pend ++ [p]).length ≤ q.capacity
        simp; omega
      · show (q.slots.set (T % q.capacity) (writtenSlot q.slot_size p)).length = q.capacity
        simp [hslen]
      · intro i hi
        show ((pend ++ [p]).getD i []).length ≤ q.slot_size - 4 ∧
          (q.slots.set (T % q.capacity) (writtenSlot q.slot_size p)).getD
              ((H + i) % q.capacity) [] =
            writtenSlot q.slot_size ((pend ++ [p]).getD i [])
        simp only [List.mem_range, List.length_append, List.length_singleton] at hi
        by_cases hin : i < pend.length
        · have hne : (H + i) % q.capacity ≠ T % q.capacity := by
            exact mod_ne_of_between (by omega) (by omega)
          rw [getD_append_lt pend [p] i [] hin, getD_set_ne _ _ _ (Ne.symm hne)]
          exact hsl i (List.mem_range.mpr hin)
        · have hieq : i = pend.length := by omega
          subst hieq
          have hTi : H + pend.length = T := hT.symm
          rw [hTi, getD_set_self _ _ _ (by rw [hslen]; exact Nat.mod_lt _ hcappos),
            getD_append_len]
          exact ⟨by omega, rfl⟩

/-- An `enqueue` succeeds when the payload fits a slot and the queue is not
full. -/
theorem enqueue_succeeds {k : ℕ} {q : MmapQueue} {pend : List (List ℕ)} {H T : ℕ} {p : List ℕ}
    (hrep : Rep k q pend H T) (hp : p.length ≤ q.slot_size - 4)
    (hlt : pend.length < q.capacity) : (q.enqueue p).2 = none := by
  obtain ⟨hk, hcap, hmask, hslot4, hslot32, hhead, htail, hT, hlen, hslen, hsl⟩ := hrep
  have hcapbound := cap_le_2_63 hk hcap
  have hfull : wsub (wadd q.tail 1) q.head = pend.length + 1 := by
    rw [htail, hhead, wadd_one_mod]
    have he : T + 1 - H = pend.length + 1 := by omega
    rw [← he]
    exact wsub_counts (by omega) (by rw [W64_val]; omega)
  simp [MmapQueue.enqueue, Nat.not_lt.mpr hp, hfull, Nat.not_lt.mpr hlt]

/-- A `dequeue` on a queue holding `p :: rest` returns `p` and keeps `rest`. -/
theorem dequeue_rep {k : ℕ} {q : MmapQueue} {p : List ℕ} {rest : List (List ℕ)} {H T : ℕ}
    (hrep : Rep k q (p :: rest) H T) :
    q.dequeue = ({ q with head := (H + 1) % W64 }, Except.ok (some p)) ∧
      Rep k { q with head := (H + 1) % W64 } rest (H + 1) T := by
  obtain ⟨hk, hcap, hmask, hslot4, hslot32, hhead, htail, hT, hlen, hslen, hsl⟩ := hrep
  have hcapbound := cap_le_2_63 hk hcap
  have hcappos : 0 < q.capacity := by rw [hcap]; positivity
  simp only [List.length_cons] at hT hlen
  have hne : q.tail ≠ q.head := by
    rw [htail, hhead]
    exact (mod_ne_of_between (a := H) (b := T) (by omega) (by rw [W64_val]; omega)).symm
  have hidx : q.head &&& q.mask = H % q.capacity := by
    rw [hhead, hmask, hcap, land_mask]
    exact mod_W64_mod_pow (by omega) H
  have hslot0 := hsl 0 (List.mem_range.mpr (by simp))
  simp only [List.getD_cons_zero, Nat.add_zero] at hslot0
  obtain ⟨hplen, hslot⟩ := hslot0
  have hlenp : decodeU32 ((q.slots.getD (q.head &&& q.mask) []).take 4) = p.length := by
    rw [hidx, hslot, take4_writtenSlot, decode_encode]
    exact Nat.mod_eq_of_lt (by omega)
  have hout : ((q.slots.getD (q.head &&& q.mask) []).drop 4).take p.length = p := by
    rw [hidx, hslot, drop4_writtenSlot, List.take_left' rfl]
  have h1 : wadd q.head 1 = (H + 1) % W64 := by rw [hhead, wadd_one_mod]
  have hdeq : q.dequeue = ({ q with head := (H + 1) % W64 }, Except.ok (some p)) := by
    simp only [MmapQueue.dequeue, if_neg hne, hlenp, hout, h1]
    rw [if_neg (Nat.not_lt.mpr hplen)]
  refine ⟨hdeq, hk, hcap, hmask, hslot4, hslot32, rfl, htail, ?_, ?_, hslen, ?_⟩
  · show T = H + 1 + rest.length
    omega
  · show rest.length ≤ q.capacity
    omega
  · intro i hi
    show (rest.getD i []).length ≤ q.slot_size - 4 ∧
      q.slots.getD ((H + 1 + i) % q.capacity) [] = writtenSlot q.slot_size (rest.getD i [])
    have := hsl (i + 1) (List.mem_range.mpr (by simp at hi ⊢; omega))
    simpa [Nat.add_assoc, Nat.add_comm 1 i] using this

/-- The live contents of a queue in the abstraction relation are exactly the
pending payloads. -/
theorem payloads_of_rep {k : ℕ} {q : MmapQueue} {pend : List (List ℕ)} {H T : ℕ}
    (hrep : Rep k q pend H T) : q.payloads = pend := by
  obtain ⟨hk, hcap, hmask, hslot4, hslot32, hhead, htail, hT, hlen, hslen, hsl⟩ := hrep
  have hcapbound := cap_le_2_63 hk hcap
  have hn : wsub q.tail q.head = pend.length := by
    rw [htail, hhead]
    have he : T - H = pend.length := by omega
    rw [← he]
    exact wsub_counts (by omega) (by rw [W64_val]; omega)
  unfold MmapQueue.payloads
  rw [hn]
  apply List.ext_getElem (by simp)
  intro i h1 h2
  simp only [List.getElem_map, List.getElem_range]
  have hmem : i < pend.length := by simpa using h2
  have hslot := hsl i (List.mem_range.mpr hmem)
  have hwadd : wadd q.head i &&& q.mask = (H + i) % q.capacity := by
    rw [hhead, wadd_mod, hmask, hcap, land_mask]
    exact mod_W64_mod_pow (by omega) (H + i)
  rw [hwadd, hslot.2, take4_writtenSlot, decode_encode,
    Nat.mod_eq_of_lt (by omega), drop4_writtenSlot, List.take_left' rfl]
  simp [List.getD_eq_getElem?_getD, List.getElem?_eq_getElem h2]

/-- The `create` call succeeds on a power-of-two capacity and yields an empty queue in
the abstraction relation. -/
theorem create_rep {k maxP : ℕ} (hk : k ≤ 63) (hmax : maxP < 4294967296) :
    ∃ q0, MmapQueue.create (2 ^ k) maxP = some q0 ∧ q0.slot_size = 4 + maxP ∧
      Rep k q0 [] 0 0 := by
  have hpow : is_power_of_two (2 ^ k) = true := by
    have h0 : (2 : ℕ) ^ k &&& (2 ^ k - 1) = 0 := by rw [land_mask, Nat.mod_self]
    have h2 : (2 : ℕ) ^ k ≠ 0 := by positivity
    simp [is_power_of_two, h0, h2]
  refine ⟨_, by rw [MmapQueue.create, if_pos hpow], rfl, ?_⟩
  refine ⟨hk, rfl, rfl, ?_, ?_, rfl, rfl, rfl, by simp, by simp, ?_⟩
  · show 4 ≤ 4 + maxP
    omega
  · show 4 + maxP - 4 < 4294967296
    omega
  · intro i hi
    simp at hi

/-- An `enqueue` never changes the header geometry. -/
theorem enqueue_fields (q : MmapQueue) (p : List ℕ) :
    (q.enqueue p).1.capacity = q.capacity ∧ (q.enqueue p).1.slot_size = q.slot_size := by
  by_cases h1 : p.length > q.slot_size - 4
  · simp [MmapQueue.enqueue, h1]
  · by_cases h2 : wsub (wadd q.tail 1) q.head > q.capacity
    · simp [MmapQueue.enqueue, h1, h2]
    · simp [MmapQueue.enqueue, h1, h2]

/-- FIFO over an arbitrary valid SPSC schedule: every operation succeeds and
the dequeued payloads are the pending-then-enqueued payloads in order. -/
theorem runQueue_fifo_aux (ops : List QOp) :
    ∀ {k : ℕ} {q : MmapQueue} {pend : List (List ℕ)} {H T : ℕ},
    Rep k q pend H T →
    validSched q.capacity pend.length ops = true →
    (∀ p ∈ enqPayloads ops, p.length ≤ q.slot_size - 4) →
    (runQueue q ops).2.2 = true ∧
      (runQueue q ops).2.1 = (pend ++ enqPayloads ops).take (deqCount ops) := by
  induction ops with
  | nil =>
    intro k q pend H T _ _ _
    exact ⟨rfl, by simp [runQueue, deqCount]⟩
  | cons op rest ih =>
    intro k q pend H T hrep hv hsz
    cases op with
    | enq p =>
      simp only [validSched, Bool.and_eq_true, decide_eq_true_eq] at hv
      have hp : p.length ≤ q.slot_size - 4 := hsz p (by simp [enqPayloads])
      have hok := enqueue_succeeds hrep hp hv.1
      have hsplit : q.enqueue p = ((q.enqueue p).1, none) := by
        rw [← hok]
      have hrep' := enqueue_rep hrep hok
      have hfields := enqueue_fields q p
      have hrun : runQueue q (QOp.enq p :: rest) = runQueue (q.enqueue p).1 rest := by
        rw [runQueue, hsplit]
      have := ih hrep'
        (by rw [hfields.1]; simpa using hv.2)
        (by intro r hr; rw [hfields.2]; exact hsz r (by simp [enqPayloads, hr]))
      rw [hrun]
      refine ⟨this.1, ?_⟩
      rw [this.2]
      show ((pend ++ [p]) ++ enqPayloads rest).take (deqCount rest) =
        (pend ++ enqPayloads (QOp.enq p :: rest)).take (deqCount (QOp.enq p :: rest))
      rw [List.append_assoc, List.singleton_append]
      rfl
    | deq =>
      simp only [validSched, Bool.and_eq_true, decide_eq_true_eq] at hv
      match pend, hv with
      | p :: pend', hv =>
        obtain ⟨hdeq, hrep'⟩ := dequeue_rep hrep
        have hrun : runQueue q (QOp.deq :: rest) =
            ((runQueue { q with head := (H + 1) % W64 } rest).1,
              p :: (runQueue { q with head := (H + 1) % W64 } rest).2.1,
              (runQueue { q with head := (H + 1) % W64 } rest).2.2) := by
          rw [runQueue, hdeq]
        have := ih hrep'
          (by simpa using hv.2)
          (by intro r hr; exact hsz r (by simp [enqPayloads, hr]))
        rw [hrun]
        refine ⟨this.1, ?_⟩
        show p :: (runQueue { q with head := (H + 1) % W64 } rest).2.1 =
          ((p :: pend') ++ enqPayloads (QOp.deq :: rest)).take (deqCount (QOp.deq :: rest))
        rw [this.2]
        simp only [enqPayloads, deqCount, List.cons_append]
        rw [Nat.add_comm 1 (deqCount rest), List.take_succ_cons]

/-- An `enqueue` that reports an error leaves the queue state unchanged
(both guards precede every write). -/
theorem enqueue_err_state {q : MmapQueue} {p : List ℕ}
    (h : (q.enqueue p).2.isSome) : (q.enqueue p).1 = q := by
  by_cases h1 : p.length > q.slot_size - 4
  · simp [MmapQueue.enqueue, h1]
  · by_cases h2 : wsub (wadd q.tail 1) q.head > q.capacity
    · simp [MmapQueue.enqueue, h1, h2]
    · simp [MmapQueue.enqueue, h1, h2] at h

/-- C8: a queue created with power-of-two capacity `2^k` delivers, for every
valid interleaving of producer enqueues and consumer dequeues (no enqueue on
a full queue, no dequeue on an empty one — lockstep operation included, so
enqueue never reports overflow there), every operation successfully, and the
i-th dequeue returns exactly the i-th enqueued payload, wrapping the indices
past the capacity as often as the schedule demands. -/
theorem mmap_queue_fifo (k maxP : ℕ) (ops : List QOp) (hk : k ≤ 63)
    (hmax : maxP < 4294967296)
    (hsz : ∀ p ∈ enqPayloads ops, p.length ≤ maxP)
    (hsched : validSched (2 ^ k) 0 ops = true) :
    ∃ q0, MmapQueue.create (2 ^ k) maxP = some q0 ∧
      (runQueue q0 ops).2.2 = true ∧
      (runQueue q0 ops).2.1 = (enqPayloads ops).take (deqCount ops) := by
  obtain ⟨q0, hq0, hss, hrep⟩ := create_rep hk hmax
  have hcap : q0.capacity = 2 ^ k := hrep.2.1
  have hmain := runQueue_fifo_aux ops hrep (by rw [hcap]; exact hsched)
    (by intro p hp; rw [hss]; have := hsz p hp; omega)
  exact ⟨q0, hq0, hmain.1, by simpa using hmain.2⟩

/-- C8 witness: §8 scenario 7 — capacity 8, 20 lockstep enqueue/dequeue
pairs with payloads of varying sizes; the run succeeds (no overflow ever
reported) and each dequeue returns the matching payload. -/
theorem mmap_queue_fifo_witness :
    validSched (2 ^ 3) 0 ops20 = true ∧
    (∀ p ∈ enqPayloads ops20, p.length ≤ 16) ∧
    ∃ q0, MmapQueue.create (2 ^ 3) 16 = some q0 ∧
      (runQueue q0 ops20).2.2 = true ∧
      (runQueue q0 ops20).2.1 = (enqPayloads ops20).take (deqCount ops20) :=
  ⟨by decide, by decide,
    mmap_queue_fifo 3 16 ops20 (by norm_num) (by norm_num) (by decide) (by decide)⟩

/-- C10: `enqueue` reports an error exactly when the payload exceeds
`slot_size - 4` or `(tail+1) - head` (wrapping) exceeds the capacity, and in
that case the queue — head, tail and every slot — is left unchanged, so
later operations behave as if the failed call never happened. -/
theorem enqueue_error_unchanged (q : MmapQueue) (p : List ℕ) :
    ((q.enqueue p).2.isSome ↔
      (p.length > q.slot_size - 4 ∨ wsub (wadd q.tail 1) q.head > q.capacity)) ∧
    ((q.enqueue p).2.isSome → (q.enqueue p).1 = q) := by
  refine ⟨?_, fun h => enqueue_err_state h⟩
  by_cases h1 : p.length > q.slot_size - 4
  · simp [MmapQueue.enqueue, h1]
  · by_cases h2 : wsub (wadd q.tail 1) q.head > q.capacity
    · simp [MmapQueue.enqueue, h1, h2]
    · simp [MmapQueue.enqueue, h1, h2]

/-- C10 witness: an overflowing enqueue on a full capacity-1 queue errors
and leaves the queue unchanged. -/
theorem enqueue_error_unchanged_witness :
    (qfull.enqueue [9]).2.isSome ∧ (qfull.enqueue [9]).1 = qfull :=
  ⟨by decide, (enqueue_error_unchanged qfull [9]).2 (by decide)⟩

/-- C7: whenever the sequencer forwards a promoted submission to
`inbound-engine`, the write-ahead log right after the (earlier) log enqueue
— and hence at the moment of the forward — contains the submission's
encoding: the log's live contents are the previous ones extended by exactly
that payload. -/
theorem wal_written_before_forward (encode : RawOrder → List ℕ) (st : SeqState)
    (v : OrderValue) {k : ℕ} {pend : List (List ℕ)} {H T : ℕ}
    (hrep : Rep k st.write_head_log pend H T)
    (hfwd : (seqStep encode st v).2 = true) :
    (seqStep encode st v).1.write_head_log.payloads =
      pend ++ [encode (v.into_raw st.seq)] := by
  simp only [seqStep] at hfwd ⊢
  cases hlog : st.write_head_log.enqueue (encode (v.into_raw st.seq)) with
  | mk log' err =>
    cases err with
    | some e =>
      rw [hlog] at hfwd
      simp at hfwd
    | none =>
      cases heng : st.inbound_engine.enqueue (encode (v.into_raw st.seq)) with
      | mk eng' err2 =>
        cases err2 with
        | some e =>
          rw [hlog, heng] at hfwd
          simp at hfwd
        | none =>
          show log'.payloads = pend ++ [encode (v.into_raw st.seq)]
          have hok : (st.write_head_log.enqueue (encode (v.into_raw st.seq))).2 = none := by
            rw [hlog]
          have hrep' := enqueue_rep hrep hok
          have hfst : (st.write_head_log.enqueue (encode (v.into_raw st.seq))).1 = log' := by
            rw [hlog]
          rw [hfst] at hrep'
          exact payloads_of_rep hrep'

/-- C7 witness: a concrete promotion through empty log and engine queues. -/
theorem wal_written_before_forward_witness :
    Rep 0 stEmpty.write_head_log [] 0 0 ∧ (seqStep enc0 stEmpty v0).2 = true ∧
    (seqStep enc0 stEmpty v0).1.write_head_log.payloads =
      [] ++ [enc0 (v0.into_raw stEmpty.seq)] :=
  ⟨by decide, by decide,
    @wal_written_before_forward enc0 stEmpty v0 0 [] 0 0 (by decide) (by decide)⟩

/-- C5 counterexample: with a full write-ahead log, the promotion of `v0`
fails (nothing is forwarded) — but the sequence counter, read 0 before the
step, reads 1 after it: the increment precedes the log enqueue in
`Sequencer::run`, so the failed promotion does advance `seq`. -/
theorem seq_advanced_on_failed_log :
    (stFull.write_head_log.enqueue (enc0 (v0.into_raw stFull.seq))).2.isSome ∧
    (seqStep enc0 stFull v0).2 = false ∧
    stFull.seq = 0 ∧ (seqStep enc0 stFull v0).1.seq = 1 := by
  decide

/-- C5 (amended): a failed log enqueue aborts the promotion — the submission
is not forwarded, and the log and engine queues are unchanged — but `seq`
*is* advanced: it reads `(seq + 1) % 2^128` after the failed step. -/
theorem seq_failed_log_aborts (encode : RawOrder → List ℕ) (st : SeqState)
    (v : OrderValue)
    (hfail : (st.write_head_log.enqueue (encode (v.into_raw st.seq))).2.isSome) :
    (seqStep encode st v).2 = false ∧
    (seqStep encode st v).1.write_head_log = st.write_head_log ∧
    (seqStep encode st v).1.inbound_engine = st.inbound_engine ∧
    (seqStep encode st v).1.seq = (st.seq + 1) % 2 ^ 128 := by
  have hstate := enqueue_err_state hfail
  simp only [seqStep]
  cases hlog : st.write_head_log.enqueue (encode (v.into_raw st.seq)) with
  | mk log' err =>
    cases err with
    | some e =>
      rw [hlog] at hstate
      exact ⟨rfl, hstate, rfl, rfl⟩
    | none =>
      rw [hlog] at hfail
      simp at hfail

/-- C5 witness for the amended statement, at the concrete full-log state. -/
theorem seq_failed_log_aborts_witness :
    (stFull.write_head_log.enqueue (enc0 (v0.into_raw stFull.seq))).2.isSome ∧
    ((seqStep enc0 stFull v0).2 = false ∧
      (seqStep enc0 stFull v0).1.write_head_log = stFull.write_head_log ∧
      (seqStep enc0 stFull v0).1.inbound_engine = stFull.inbound_engine ∧
      (seqStep enc0 stFull v0).1.seq = (stFull.seq + 1) % 2 ^ 128) :=
  ⟨by decide, seq_failed_log_aborts enc0 stFull v0 (by decide)⟩

/-! ## Association-list algebra for the book's maps -/

section AList

variable {α : Type} [DecidableEq α] {β : Type}

theorem alook_cons (a : α) (b : β) (l : List (α × β)) (k : α) :
    alook ((a, b) :: l) k = if a = k then some b else alook l k := by
  by_cases h : a = k
  · simp [alook, List.find?_cons_of_pos, h]
  · simp [alook, List.find?_cons_of_neg, h]

theorem alook_aupdate_self {l : List (α × β)} {k : α} {v : β}
    (h : alook l k = some v) (f : β → β) : alook (aupdate l k f) k = some (f v) := by
  induction l with
  | nil => simp [alook] at h
  | cons p rest ih =>
    obtain ⟨a, b⟩ := p
    rw [alook_cons] at h
    by_cases hak : a = k
    · rw [if_pos hak] at h
      cases h
      simp [aupdate, hak, alook_cons]
    · rw [if_neg hak] at h
      simp only [aupdate, if_neg hak]
      rw [alook_cons, if_neg hak]
      exact ih h

theorem aupdate_aupdate (l : List (α × β)) (k : α) (f g : β → β) :
    aupdate (aupdate l k f) k g = aupdate l k fun v => g (f v) := by
  induction l with
  | nil => simp [aupdate]
  | cons p rest ih =>
    obtain ⟨a, b⟩ := p
    by_cases hak : a = k
    · simp [aupdate, hak]
    · simp [aupdate, hak, ih]

theorem aupdate_congr {l : List (α × β)} {k : α} {v : β} {f g : β → β}
    (h : alook l k = some v) (hfg : f v = g v) : aupdate l k f = aupdate l k g := by
  induction l with
  | nil => simp [alook] at h
  | cons p rest ih =>
    obtain ⟨a, b⟩ := p
    rw [alook_cons] at h
    by_cases hak : a = k
    · rw [if_pos hak] at h
      cases h
      simp [aupdate, hak, hfg]
    · rw [if_neg hak] at h
      simp [aupdate, hak, ih h]

theorem alook_append_fresh {l : List (α × β)} {k : α} (h : alook l k = none) (v : β) :
    alook (l ++ [(k, v)]) k = some v := by
  induction l with
  | nil => simp [alook]
  | cons p rest ih =>
    obtain ⟨a, b⟩ := p
    rw [alook_cons] at h
    by_cases hak : a = k
    · rw [if_pos hak] at h
      exact Option.noConfusion h
    · rw [if_neg hak] at h
      rw [List.cons_append, alook_cons, if_neg hak]
      exact ih h

theorem aerase_append_fresh {l : List (α × β)} {k : α} (h : alook l k = none) (v : β) :
    aerase (l ++ [(k, v)]) k = l := by
  induction l with
  | nil => simp [aerase]
  | cons p rest ih =>
    obtain ⟨a, b⟩ := p
    rw [alook_cons] at h
    by_cases hak : a = k
    · rw [if_pos hak] at h
      exact Option.noConfusion h
    · rw [if_neg hak] at h
      have hrest : List.eraseP (fun p => decide (p.1 = k)) (rest ++ [(k, v)]) = rest := by
        simpa [aerase] using ih h
      simp [aerase, List.eraseP_cons, hak, hrest]

theorem ainsert_fresh {l : List (α × β)} {k : α} (h : alook l k = none) (v : β) :
    ainsert l k v = l ++ [(k, v)] := by
  have hfind : (l.find? fun p => p.1 = k) = none := by
    unfold alook at h
    exact Option.map_eq_none'.mp h
  simp [ainsert, hfind]

theorem alook_aerase_ne {l : List (α × β)} {k x : α} (hx : x ≠ k) :
    alook (aerase l k) x = alook l x := by
  induction l with
  | nil => simp [aerase]
  | cons p rest ih =>
    obtain ⟨a, b⟩ := p
    have hrest : alook (List.eraseP (fun p => decide (p.1 = k)) rest) x = alook rest x := by
      simpa [aerase] using ih
    by_cases hak : a = k
    · subst hak
      rw [alook_cons, if_neg fun he => hx he.symm]
      simp [aerase, List.eraseP_cons]
    · by_cases hax : a = x
      · simp [aerase, List.eraseP_cons, hak, alook_cons, hax, hx]
      · simp [aerase, List.eraseP_cons, hak, alook_cons, hax, hrest]

theorem alook_keyfix_map {l : List (α × β)} (g : α × β → β) (x : α) :
    alook (l.map fun kv => (kv.1, g kv)) x = (l.find? fun p => p.1 = x).map fun kv => g kv := by
  induction l with
  | nil => simp [alook]
  | cons p rest ih =>
    obtain ⟨a, b⟩ := p
    by_cases hax : a = x
    · simp [alook, List.find?_cons_of_pos, hax]
    · simp only [List.map_cons]
      rw [alook_cons, if_neg hax, ih, List.find?_cons_of_neg _ (by simpa using hax)]

end AList

theorem findIdx?_append_singleton {α : Type} (p : α → Bool) (l : List α) (a : α)
    (h : ∀ x ∈ l, p x = false) (ha : p a = true) :
    (l ++ [a]).findIdx? p = some l.length := by
  induction l with
  | nil => simp [ha]
  | cons x xs ih =>
    have hx := h x (by simp)
    rw [List.cons_append, List.findIdx?_cons, if_neg (by simp [hx]), List.findIdx?_start_succ,
      ih fun y hy => h y (by simp [hy])]
    simp

theorem eraseIdx_append_length {α : Type} (l : List α) (a : α) :
    (l ++ [a]).eraseIdx l.length = l := by
  induction l with
  | nil => rfl
  | cons x xs ih => simpa using ih

/-! ## Book projections -/

theorem setSideLevels_same (b : LimitOrderBook) (s : Side) (L : List (ℚ × Limit)) :
    (b.setSideLevels s L).sideLevels s = L := by
  cases s <;> rfl

theorem setSideLevels_other (b : LimitOrderBook) (s : Side) (L : List (ℚ × Limit)) :
    (b.setSideLevels s L).sideLevels (otherSide s) = b.sideLevels (otherSide s) := by
  cases s <;> rfl

theorem setSideLevels_ord_map (b : LimitOrderBook) (s : Side) (L : List (ℚ × Limit)) :
    (b.setSideLevels s L).ord_map = b.ord_map := by
  cases s <;> rfl

theorem setSideLevels_best_ask (b : LimitOrderBook) (s : Side) (L : List (ℚ × Limit)) :
    (b.setSideLevels s L).best_ask = b.best_ask := by
  cases s <;> rfl

theorem setSideLevels_best_bid (b : LimitOrderBook) (s : Side) (L : List (ℚ × Limit)) :
    (b.setSideLevels s L).best_bid = b.best_bid := by
  cases s <;> rfl

theorem setSideLevels_book_id (b : LimitOrderBook) (s : Side) (L : List (ℚ × Limit)) :
    (b.setSideLevels s L).book_id = b.book_id := by
  cases s <;> rfl

theorem sideLevels_mk_ord (b : LimitOrderBook) (m : List (String × RawOrder)) (s : Side) :
    ({ b with ord_map := m }).sideLevels s = b.sideLevels s := by
  cases s <;> rfl

/-- What `insert` does to the touched side's level container. -/
theorem insert_sideLevels_same (b : LimitOrderBook) (o : RawOrder) :
    (b.insert o).sideLevels o.side =
      (match alook (b.sideLevels o.side) o.price with
       | none => b.sideLevels o.side ++
           [(o.price, insertIntoLimit (Limit.mk o.price 0 [] false) o)]
       | some _ => aupdate (b.sideLevels o.side) o.price fun l => insertIntoLimit l o) := by
  cases hs : o.side <;>
    cases halev : alook (b.sideLevels o.side) o.price <;>
      simp [LimitOrderBook.insert, LimitOrderBook.setSideLevels, LimitOrderBook.sideLevels,
        hs, halev.symm, apply_ite]

/-- An `insert` leaves the other side's level container alone. -/
theorem insert_sideLevels_other (b : LimitOrderBook) (o : RawOrder) :
    (b.insert o).sideLevels (otherSide o.side) = b.sideLevels (otherSide o.side) := by
  cases hs : o.side <;>
    simp [LimitOrderBook.insert, LimitOrderBook.setSideLevels, LimitOrderBook.sideLevels,
      otherSide, hs, apply_ite]

/-- An `insert` adds the order to `ord_map` (`HashMap::insert` semantics). -/
theorem insert_ord_map (b : LimitOrderBook) (o : RawOrder) :
    (b.insert o).ord_map = ainsert b.ord_map o.order_id o := by
  cases hs : o.side <;>
    simp [LimitOrderBook.insert, LimitOrderBook.setSideLevels, hs, apply_ite]

/-- The best-quote caches after `insert`: a side's cache is set to the new
order only when it was null, and only on the order's own side. -/
theorem insert_best_fields (b : LimitOrderBook) (o : RawOrder) :
    (b.insert o).best_ask =
      (if o.side = Side.ASK ∧ b.best_ask = none then some o.order_id else b.best_ask) ∧
    (b.insert o).best_bid =
      (if o.side = Side.BID ∧ b.best_bid = none then some o.order_id else b.best_bid) := by
  cases hs : o.side
  · cases hba : b.best_ask <;>
      simp [LimitOrderBook.insert, LimitOrderBook.setSideLevels, hs, hba, apply_ite]
  · cases hbb : b.best_bid <;>
      simp [LimitOrderBook.insert, LimitOrderBook.setSideLevels, hs, hbb, apply_ite]

theorem insert_book_id (b : LimitOrderBook) (o : RawOrder) :
    (b.insert o).book_id = b.book_id := by
  cases hs : o.side <;>
    simp [LimitOrderBook.insert, LimitOrderBook.setSideLevels, hs, apply_ite]

/-- The state `remove` reaches right after erasing the freshly inserted
order from `ord_map`, and what it then does to the level container. -/
theorem insert_remove_levels (b : LimitOrderBook) (o : RawOrder)
    (hfresh : alook b.ord_map o.order_id = none)
    (hlvl : ∀ l, alook (b.sideLevels o.side) o.price = some l →
      l.tailSome = true ∧ l.chain ≠ [] ∧ o.order_id ∉ l.chain.map RawOrder.order_id) :
    (b.insert o).remove o.order_id =
      ({ b.insert o with ord_map := b.ord_map } : LimitOrderBook).setSideLevels o.side
        (match alook (b.sideLevels o.side) o.price with
         | none => b.sideLevels o.side
         | some _ => aupdate (b.sideLevels o.side) o.price
             fun l => { l with tailSome := false }) := by
  have hom : (b.insert o).ord_map = b.ord_map ++ [(o.order_id, o)] := by
    rw [insert_ord_map, ainsert_fresh hfresh]
  have hlook : alook (b.insert o).ord_map o.order_id = some o := by
    rw [hom]
    exact alook_append_fresh hfresh o
  have herase : aerase (b.insert o).ord_map o.order_id = b.ord_map := by
    rw [hom]
    exact aerase_append_fresh hfresh o
  cases halev : alook (b.sideLevels o.side) o.price with
  | none =>
    -- the fresh level holds exactly the new order; removing it deletes the level
    have h1 : alook ((b.insert o).sideLevels o.side) o.price =
        some (insertIntoLimit (Limit.mk o.price 0 [] false) o) := by
      rw [insert_sideLevels_same, halev]
      exact alook_append_fresh halev _
    have h2 : aerase ((b.insert o).sideLevels o.side) o.price = b.sideLevels o.side := by
      rw [insert_sideLevels_same, halev]
      exact aerase_append_fresh halev _
    have hchain : (insertIntoLimit (Limit.mk o.price 0 [] false) o).chain = [o] := by
      simp [insertIntoLimit]
    simp only [LimitOrderBook.remove, hlook, herase, sideLevels_mk_ord, h1, hchain,
      List.findIdx?_cons, decide_True, if_pos rfl]
    simp [h2]
  | some l0 =>
    obtain ⟨htail, hne, hnotin⟩ := hlvl l0 halev
    have hX : insertIntoLimit l0 o =
        { l0 with vol := l0.vol + o.size, chain := l0.chain ++ [o], tailSome := true } := by
      simp [insertIntoLimit, htail]
    have h1 : alook ((b.insert o).sideLevels o.side) o.price =
        some { l0 with vol := l0.vol + o.size, chain := l0.chain ++ [o], tailSome := true } := by
      rw [insert_sideLevels_same, halev, alook_aupdate_self halev, hX]
    have hfind : (l0.chain ++ [o]).findIdx? (fun x => x.order_id = o.order_id) =
        some l0.chain.length := by
      apply findIdx?_append_singleton
      · intro x hx
        simp only [decide_eq_false_iff_not]
        intro hcontra
        exact hnotin (by rw [← hcontra]; exact List.mem_map_of_mem _ hx)
      · simp
    have hj0 : ¬ l0.chain.length = 0 := by
      simpa [List.length_eq_zero] using hne
    have hlen : l0.chain.length = (l0.chain ++ [o]).length - 1 := by simp
    have hupd : aupdate ((b.insert o).sideLevels o.side) o.price
        (fun l => { l with
          vol := l.vol - o.size
          chain := l.chain.eraseIdx l0.chain.length
          tailSome := if ¬ l0.chain.length = 0 ∧
              l0.chain.length = (l0.chain ++ [o]).length - 1 then false else l.tailSome }) =
        aupdate (b.sideLevels o.side) o.price fun l => { l with tailSome := false } := by
      rw [insert_sideLevels_same, halev, aupdate_aupdate]
      apply aupdate_congr halev
      simp [hX, eraseIdx_append_length, hj0]
    simp only [LimitOrderBook.remove, hlook, herase, sideLevels_mk_ord, h1, hfind, halev]
    rw [if_neg (by simp [hj0])]
    simp only [hupd]

/-- C6 (amended): on a well-formed book (live tail pointers, non-empty level
lists) and a fresh order id, `insert` followed by `remove` of that id
restores the order-id index, both sides' price ladders/hash indices up to
the touched level's `tail` pointer — which is left null when the level
pre-existed — each level's head, list and `total_volume`, and the book id;
the best-quote cache of the order's side keeps the pointer the insert wrote
when the cache was null, and is unchanged otherwise. -/
theorem insert_remove_roundtrip (b : LimitOrderBook) (o : RawOrder)
    (hfresh : alook b.ord_map o.order_id = none)
    (hlvl : ∀ l, alook (b.sideLevels o.side) o.price = some l →
      l.tailSome = true ∧ l.chain ≠ [] ∧ o.order_id ∉ l.chain.map RawOrder.order_id) :
    ((b.insert o).remove o.order_id).ord_map = b.ord_map ∧
    ((b.insert o).remove o.order_id).sideLevels o.side =
      (match alook (b.sideLevels o.side) o.price with
       | none => b.sideLevels o.side
       | some _ => aupdate (b.sideLevels o.side) o.price
           fun l => { l with tailSome := false }) ∧
    ((b.insert o).remove o.order_id).sideLevels (otherSide o.side) =
      b.sideLevels (otherSide o.side) ∧
    ((b.insert o).remove o.order_id).best_ask =
      (if o.side = Side.ASK ∧ b.best_ask = none then some o.order_id else b.best_ask) ∧
    ((b.insert o).remove o.order_id).best_bid =
      (if o.side = Side.BID ∧ b.best_bid = none then some o.order_id else b.best_bid) ∧
    ((b.insert o).remove o.order_id).book_id = b.book_id := by
  rw [insert_remove_levels b o hfresh hlvl]
  refine ⟨?_, ?_, ?_, ?_, ?_, ?_⟩
  · rw [setSideLevels_ord_map]
  · rw [setSideLevels_same]
  · rw [setSideLevels_other, sideLevels_mk_ord, insert_sideLevels_other]
  · rw [setSideLevels_best_ask]
    show (b.insert o).best_ask = _
    exact (insert_best_fields b o).1
  · rw [setSideLevels_best_bid]
    show (b.insert o).best_bid = _
    exact (insert_best_fields b o).2
  · rw [setSideLevels_book_id]
    show (b.insert o).book_id = _
    exact insert_book_id b o

/-! ## Engine-side lemmas -/

theorem update_best_ord_map (b : LimitOrderBook) (s : Side) :
    (b.update_best s).ord_map = b.ord_map := by
  cases s <;> rfl

theorem alook_ainsert_self {α : Type} [DecidableEq α] {β : Type}
    (l : List (α × β)) (k : α) (v : β) : alook (ainsert l k v) k = some v := by
  by_cases hf : (l.find? fun p => p.1 = k).isSome
  · obtain ⟨pr, hpr⟩ := Option.isSome_iff_exists.mp hf
    have hl : alook l k = some pr.2 := by
      unfold alook
      rw [hpr]
      rfl
    rw [ainsert, if_pos hf]
    exact alook_aupdate_self hl _
  · rw [ainsert, if_neg hf]
    apply alook_append_fresh
    unfold alook
    rw [Option.not_isSome_iff_eq_none.mp hf]
    rfl

theorem alook_aerase_none {α : Type} [DecidableEq α] {β : Type}
    {l : List (α × β)} {k x : α} (h : alook l x = none) :
    alook (aerase l k) x = none := by
  by_cases hxk : x = k
  · subst hxk
    have hfind : (l.find? fun p => p.1 = x) = none := by
      unfold alook at h
      exact Option.map_eq_none'.mp h
    have : aerase l x = l := by
      unfold aerase
      apply List.eraseP_of_forall_not
      intro a ha
      have := List.find?_eq_none.mp hfind a ha
      simpa using this
    rw [this]
    exact h
  · rw [alook_aerase_ne hxk]
    exact h

theorem alook_mapOrderSize (b : LimitOrderBook) (id : String) (f : ℕ → ℕ) (x : String) :
    alook (mapOrderSize b id f).ord_map x =
      (alook b.ord_map x).map
        fun v => if v.order_id = id then { v with size := f v.size } else v := by
  show alook (b.ord_map.map fun kv =>
      if kv.2.order_id = id then (kv.1, { kv.2 with size := f kv.2.size }) else kv) x = _
  have hfun : (fun kv : String × RawOrder =>
      if kv.2.order_id = id then (kv.1, { kv.2 with size := f kv.2.size }) else kv) =
      fun kv : String × RawOrder =>
        (kv.1, if kv.2.order_id = id then { kv.2 with size := f kv.2.size } else kv.2) := by
    funext kv
    split_ifs <;> simp
  rw [hfun, alook_keyfix_map]
  unfold alook
  cases b.ord_map.find? fun p => p.1 = x <;> simp

/-- A `remove` either misses (no binding of the id) or erases the id's first
binding from `ord_map`; nothing else touches the index. -/
theorem remove_ord_map (bk : LimitOrderBook) (rid : String) :
    (bk.remove rid).ord_map =
      (match alook bk.ord_map rid with
       | none => bk.ord_map
       | some _ => aerase bk.ord_map rid) := by
  cases hl : alook bk.ord_map rid with
  | none => simp [LimitOrderBook.remove, hl]
  | some or =>
    simp only [LimitOrderBook.remove, hl]
    split
    · rfl
    · split
      · simp [setSideLevels_ord_map]
      · split_ifs <;> simp [setSideLevels_ord_map]

/-- The matching engine always emits the aggressor's `INSERTED` execution
message — the final `enqueue` in `MatchingEngine::run` is unconditional. -/
theorem engineStep_emits_inserted (lob : LimitOrderBook) (o : RawOrder) :
    ExecuteMessage.mk o.seq_id Execution.INSERTED ∈ (engineStep lob o).2 := by
  unfold engineStep
  cases hos : lob.resolveBest o.side with
  | none => simp
  | some order =>
    cases horder : order.side <;> dsimp only <;> split_ifs <;> simp

/-- No branch of `engineStep` constructs a `CANCELLED` execution. -/
theorem engineStep_no_cancel (lob : LimitOrderBook) (o : RawOrder) :
    ∀ m ∈ (engineStep lob o).2, m.execution ≠ Execution.CANCELLED := by
  unfold engineStep
  cases hos : lob.resolveBest o.side with
  | none => simp
  | some order =>
    cases horder : order.side <;> dsimp only <;> split_ifs <;>
      simp [ExecuteMessage.set_execution]

theorem engineRun_cons (lob : LimitOrderBook) (o : RawOrder) (os : List RawOrder) :
    engineRun lob (o :: os) =
      ((engineRun (engineStep lob o).1 os).1,
        (engineStep lob o).2 ++ (engineRun (engineStep lob o).1 os).2) := by
  cases h : engineStep lob o with
  | mk lob' msgs => rw [engineRun, h]

theorem remove_preserves_none (bk : LimitOrderBook) (rid x : String)
    (h : alook bk.ord_map x = none) : alook (bk.remove rid).ord_map x = none := by
  rw [remove_ord_map]
  cases alook bk.ord_map rid with
  | none => exact h
  | some _ => exact alook_aerase_none h

/-! ## Claim theorems for the book and the engine -/

/-- C2 (amended): for every processed order, the remainder is inserted into
the book if and only if the aggressor's size after the single crossing step
is positive — but the aggressor's `INSERTED` execution message is emitted
*unconditionally*, the final `enqueue` of `MatchingEngine::run` being outside
every branch; an aggressor that fully fills still produces `INSERTED`. -/
theorem aggressor_step (lob : LimitOrderBook) (o : RawOrder)
    (hsz : 0 < o.size) (hfresh : alook lob.ord_map o.order_id = none) :
    ExecuteMessage.mk o.seq_id Execution.INSERTED ∈ (engineStep lob o).2 ∧
    ((alook (engineStep lob o).1.ord_map o.order_id).isSome ↔ 0 < aggRemaining lob o) := by
  refine ⟨engineStep_emits_inserted lob o, ?_⟩
  unfold engineStep aggRemaining
  cases hos : lob.resolveBest o.side with
  | none =>
    dsimp only
    rw [update_best_ord_map, insert_ord_map, alook_ainsert_self]
    simpa using hsz
  | some order =>
    dsimp only
    split_ifs with h1 h2 h3 h4 h5
    · simp [update_best_ord_map, insert_ord_map, alook_ainsert_self]
      omega
    · simp [update_best_ord_map, insert_ord_map, alook_ainsert_self]
      omega
    · have hm1 : alook (mapOrderSize lob order.order_id
          fun s => s - order.size ⊓ o.size).ord_map o.order_id = none := by
        rw [alook_mapOrderSize, hfresh]
        rfl
      have hm2 := remove_preserves_none _ order.order_id o.order_id hm1
      simp [update_best_ord_map, hm2]
      omega
    · have hm1 : alook (mapOrderSize lob order.order_id
          fun s => s - order.size ⊓ o.size).ord_map o.order_id = none := by
        rw [alook_mapOrderSize, hfresh]
        rfl
      simp [hm1]
      omega
    · simp [update_best_ord_map, insert_ord_map, alook_ainsert_self]
      omega
    · exfalso
      omega

/-- C2 witness: the amended statement at a concrete book and order. -/
theorem aggressor_step_witness :
    0 < ordA.size ∧ alook book0.ord_map ordA.order_id = none ∧
    (ExecuteMessage.mk ordA.seq_id Execution.INSERTED ∈ (engineStep book0 ordA).2 ∧
      ((alook (engineStep book0 ordA).1.ord_map ordA.order_id).isSome ↔
        0 < aggRemaining book0 ordA)) :=
  ⟨by decide, by decide, aggressor_step book0 ordA (by decide) (by decide)⟩

/-- C2 counterexample: §8 scenario 2 — resting ASK `A` of size 10, then an
exactly-matching BID `B` of size 10.  `B` fully fills (the final book is
empty, so nothing of `B` was inserted), yet the engine still emits
`(B, INSERTED)` — it is the third message — refuting "an aggressor that
fully fills produces no INSERTED message for itself". -/
theorem aggressor_full_fill_still_inserted :
    engineRun book0 [ordA10, ordB10] =
      ({ book_id := "BOOK", asks := [], bids := [], ord_map := []
         best_ask := none, best_bid := none },
       [⟨1, Execution.INSERTED⟩, ⟨1, Execution.FILL⟩, ⟨2, Execution.INSERTED⟩]) ∧
    aggRemaining (engineRun book0 [ordA10]).1 ordB10 = 0 := by
  decide

/-- C9: across any inbound stream, the engine emits only `INSERTED`,
`PARTIAL` and `FILL` executions — never `CANCELLED` (and
`LimitOrderBook::remove` returns no event at all, as its type shows). -/
theorem engineRun_no_cancelled (lob : LimitOrderBook) (os : List RawOrder) :
    ∀ m ∈ (engineRun lob os).2, m.execution ≠ Execution.CANCELLED := by
  induction os generalizing lob with
  | nil =>
    intro m hm
    simp [engineRun] at hm
  | cons o os ih =>
    intro m hm
    rw [engineRun_cons] at hm
    rcases List.mem_append.mp hm with h | h
    · exact engineStep_no_cancel lob o m h
    · exact ih _ m h

/-- C9 witness: a concrete emitted message, not `CANCELLED`. -/
theorem engineRun_no_cancelled_witness :
    (ExecuteMessage.mk 1 Execution.INSERTED ∈ (engineRun book0 [ordA]).2) ∧
    (ExecuteMessage.mk 1 Execution.INSERTED).execution ≠ Execution.CANCELLED :=
  ⟨by decide, engineRun_no_cancelled book0 [ordA] ⟨1, Execution.INSERTED⟩ (by decide)⟩

/-- C1 counterexample: §8 scenario 6 on the code as written.  After resting
ASKs `A` (size 3) and `B` (size 7) at 100.10, the crossing BID of size 5
produces messages `[(A,INSERTED), (B,INSERTED), (A,FILL), (C,INSERTED)]` —
no `PARTIAL` for `B` with quantity 2 is ever emitted — and the remaining ASK
depth at 100.10 is reported as 10 (not 5): the engine matches at most once,
parks the BID remainder (size 2) on the BID side of the same price, and
never decrements `total_volume` on a trade. -/
theorem fifo_sweep_counterexample :
    engineRun book0 [ordA, ordB, ordC] =
      ({ book_id := "BOOK"
         asks := [(p10010, ⟨p10010, 10, [ordB], true⟩)]
         bids := [(p10010, ⟨p10010, 2, [{ ordC with size := 2 }], true⟩)]
         ord_map := [("B", ordB), ("C", { ordC with size := 2 })]
         best_ask := some "B"
         best_bid := some "C" },
       [⟨1, Execution.INSERTED⟩, ⟨2, Execution.INSERTED⟩,
        ⟨1, Execution.FILL⟩, ⟨3, Execution.INSERTED⟩]) := by
  decide

/-- C1 (amended): in §8 scenario 6 the code trades only the single step
against `A`: `A` fully trades and its message is upgraded to `FILL` (which
carries no quantity); `B` never trades and no message for `B`'s fill is
emitted; the BID remainder of size 2 is inserted as a resting BID at 100.10
and the aggressor's `INSERTED` is emitted; the ASK level keeps exactly `B`
(size 7) in FIFO order while its reported depth stays 10, `total_volume`
not being decremented by trades. -/
theorem fifo_single_match :
    (engineRun book0 [ordA, ordB, ordC]).2 =
      [⟨1, Execution.INSERTED⟩, ⟨2, Execution.INSERTED⟩,
       ⟨1, Execution.FILL⟩, ⟨3, Execution.INSERTED⟩] ∧
    (alook (engineRun book0 [ordA, ordB, ordC]).1.asks p10010).map Limit.chain =
      some [ordB] ∧
    (engineRun book0 [ordA, ordB, ordC]).1.depth Side.ASK p10010 = some 10 ∧
    (engineRun book0 [ordA, ordB, ordC]).1.depth Side.BID p10010 = some 2 ∧
    (alook (engineRun book0 [ordA, ordB, ordC]).1.bids p10010).map
        (fun l => l.chain.map fun x => (x.order_id, x.size)) = some [("C", 2)] := by
  decide

/-- C3: the failing input `insert X(100.10,3); insert Y(100.10,4);
remove(Y); insert Z(100.10,5)`.  Removing the tail `Y` writes
`limit.tail = next_order` (null); the next insert mistakes the level for
fresh, re-points `head` at `Z` and adds `Z`'s size to the stale volume:
`total_volume` reads 8 while the level's list holds only `Z` (sum 5),
violating LOB-I1. -/
theorem volume_invariant_violated :
    c3book.depth Side.ASK p10010 = some 8 ∧
    (alook c3book.asks p10010).map (fun l => (l.chain.map RawOrder.size).sum) = some 5 := by
  decide

/-- C4 counterexample: insert ASK `P` at 100, then ASK `Q` at the strictly
better price 90.  The cache is not updated (`insert` only writes it when it
is null): `best_ask` still points at `P` while the head of the best (minimum
price) ASK level is `Q`. -/
theorem best_cache_not_updated :
    ((book0.insert ordP).insert ordQ).best_ask = some "P" ∧
    bestLevelPrice ((book0.insert ordP).insert ordQ).asks Side.ASK = some p90 ∧
    ((alook ((book0.insert ordP).insert ordQ).asks p90).bind fun l =>
      l.chain.head?.map RawOrder.order_id) = some "Q" := by
  decide

/-- C4 (amended): `insert` writes a side's best-quote cache only when that
cache is currently null (and then points it at the new order); it never
updates it when the new order's level is strictly better than the current
best, so the cache need not equal the head of the best price level. -/
theorem insert_best_cache (b : LimitOrderBook) (o : RawOrder) :
    (b.insert o).best_ask =
      (if o.side = Side.ASK ∧ b.best_ask = none then some o.order_id else b.best_ask) ∧
    (b.insert o).best_bid =
      (if o.side = Side.BID ∧ b.best_bid = none then some o.order_id else b.best_bid) :=
  insert_best_fields b o

/-- C6 counterexample: `insert` followed by `remove` of the same fresh order
does not restore the book.  (a) From the empty book, inserting `P` and
removing it leaves `best_ask = P` — a pointer to the removed order — instead
of the prior null.  (b) On a book holding `X` at 100.10, inserting `Y` at
the same price and removing it leaves the level's `tail` null instead of
re-pointing it at `X`. -/
theorem insert_remove_not_identity :
    (((book0.insert ordP).remove "P").best_ask = some "P" ∧ book0.best_ask = none) ∧
    ((alook ((c6book.insert ordY).remove "Y").asks p10010).map Limit.tailSome = some false ∧
      (alook c6book.asks p10010).map Limit.tailSome = some true) := by
  decide

/-- C6 witness: the amended round-trip at a concrete book and order. -/
theorem insert_remove_roundtrip_witness :
    alook c6book.ord_map ordY.order_id = none ∧
    (((c6book.insert ordY).remove ordY.order_id).ord_map = c6book.ord_map ∧
      ((c6book.insert ordY).remove ordY.order_id).sideLevels ordY.side =
        (match alook (c6book.sideLevels ordY.side) ordY.price with
         | none => c6book.sideLevels ordY.side
         | some _ => aupdate (c6book.sideLevels ordY.side) ordY.price
             fun l => { l with tailSome := false }) ∧
      ((c6book.insert ordY).remove ordY.order_id).sideLevels (otherSide ordY.side) =
        c6book.sideLevels (otherSide ordY.side) ∧
      ((c6book.insert ordY).remove ordY.order_id).best_ask =
        (if ordY.side = Side.ASK ∧ c6book.best_ask = none then some ordY.order_id
         else c6book.best_ask) ∧
      ((c6book.insert ordY).remove ordY.order_id).best_bid =
        (if ordY.side = Side.BID ∧ c6book.best_bid = none then some ordY.order_id
         else c6book.best_bid) ∧
      ((c6book.insert ordY).remove ordY.order_id).book_id = c6book.book_id) :=
  ⟨by decide, insert_remove_roundtrip c6book ordY (by decide) (by decide)⟩

end Exchange
